import Mathlib

/-!
Verification of the Fiverr search-results scraper (`src/routes.ts`).

The page-evaluation callback of the `search_results` handler is embedded
shallowly: DOM query results are modelled as `Option`-valued element data,
JS strings as `List Char`, JS numbers arising from `parseFloat` as `ℚ` and
from `parseInt` as `ℕ`.  Each helper function of the source (`cleanText`,
`generateTags`, the per-field extraction loops, the block check and the
pagination decision) becomes one Lean definition mirroring its control flow.
-/

namespace Scraper

/-- JS strings are modelled as lists of characters. -/
abbrev Str := List Char

/-- The apostrophe character (code point 39), written via `Char.ofNat`. -/
def apos : Char := Char.ofNat 39

/-- The double-quote character (code point 34). -/
def quoteCh : Char := Char.ofNat 34

/-- Whitespace class of JS regex `\s` and `String.prototype.trim`. -/
def isWsChar (c : Char) : Bool :=
  let n := c.toNat
  n = 9 ∨ n = 10 ∨ n = 11 ∨ n = 12 ∨ n = 13 ∨ n = 32 ∨ n = 160 ∨ n = 0x1680 ∨
    (0x2000 ≤ n ∧ n ≤ 0x200a) ∨ n = 0x2028 ∨ n = 0x2029 ∨ n = 0x202f ∨
    n = 0x205f ∨ n = 0x3000 ∨ n = 0xfeff

/-- The digit class of JS regex `\d`. -/
def isDigitCh (c : Char) : Bool :=
  '0' ≤ c ∧ c ≤ '9'

/-- JS `text.trim()`: drop leading and trailing whitespace. -/
def jsTrim (s : Str) : Str :=
  ((s.dropWhile isWsChar).reverse.dropWhile isWsChar).reverse

/-- JS `text.replace(/p/g, r)` for a single-character pattern `p`:
each occurrence of `p` is replaced by `r`. -/
def replaceChar (p r : Char) : Str → Str
  | [] => []
  | c :: rest => (if c = p then r else c) :: replaceChar p r rest

/-- JS `text.replace(/&#39;/g, "'")`: each occurrence of the literal
`&#39;`, scanned left to right without overlap, becomes an apostrophe. -/
def replaceEnt : Str → Str
  | '&' :: '#' :: '3' :: '9' :: ';' :: rest => apos :: replaceEnt rest
  | c :: rest => c :: replaceEnt rest
  | [] => []

/-- State-passing core of JS `text.replace(/\s+/g, ' ')`: the flag records
whether we are inside a whitespace run whose single `' '` was already
emitted. -/
def collapseAux : Str → Bool → Str
  | [], _ => []
  | c :: rest, inRun =>
    if isWsChar c then
      if inRun then collapseAux rest true else ' ' :: collapseAux rest true
    else
      c :: collapseAux rest false

/-- JS `text.replace(/\s+/g, ' ')`: every maximal whitespace run becomes a
single space. -/
def collapseWs (s : Str) : Str :=
  collapseAux s false

/-- `cleanText` from `routes.ts` lines 267-276: the four entity
replacements written in the source (each of which substitutes a character
for itself), the `&#39;` decoding, whitespace collapsing, and trim. -/
def cleanText (s : Str) : Str :=
  jsTrim (collapseWs (replaceEnt
    (replaceChar quoteCh quoteCh (replaceChar '>' '>' (replaceChar '<' '<' (replaceChar '&' '&' s))))))

/-- JS `a || b` on strings: `b` if `a` is empty (falsy), else `a`. -/
def jsOr (a b : Str) : Str :=
  if a = [] then b else a

/-- A nullable attribute/text under `|| ...` chaining: `null` acts as the
empty string. -/
def optStr (o : Option Str) : Str :=
  o.getD []

/-- JS `el.textContent?.trim()` under `|| ...` chaining: `null` text acts
as the empty string, otherwise the text is trimmed. -/
def optTrim (o : Option Str) : Str :=
  match o with
  | some s => jsTrim s
  | none => []

/-- Substring test, JS `a.includes(b)` (here `hasSub pat s` means `pat`
occurs in `s`). -/
def hasSub (pat s : Str) : Bool :=
  decide (pat <:+: s)

/-- Numeric value of a digit string, as read by `parseInt`/`parseFloat`. -/
def natOfDigits (l : Str) : ℕ :=
  l.foldl (fun acc c => acc * 10 + (c.toNat - 48)) 0

/-- First match of JS regex `(\d+)` (as used for review counts via
`\(?(\d+)\)?` and generally for the leading digit run): the value of the
first maximal digit run, if any. -/
def firstNat : Str → Option ℕ
  | [] => none
  | c :: rest =>
    if isDigitCh c then some (natOfDigits (c :: rest.takeWhile isDigitCh))
    else firstNat rest

/-- Value denoted by an integer digit run and a (possibly empty) fraction
digit run, as produced by `parseFloat` on a `\d+\.?\d*` match. -/
def decValue (intPart frac : Str) : ℚ :=
  (natOfDigits intPart : ℚ) + (natOfDigits frac : ℚ) / (10 : ℚ) ^ frac.length

/-- First match of JS regex `(\d+\.?\d*)` together with `parseFloat`
(rating extraction, line 402): digits, an optional dot, optional further
digits, starting at the first digit of the text. -/
def firstNumber : Str → Option ℚ
  | [] => none
  | c :: rest =>
    if isDigitCh c then
      let intPart := c :: rest.takeWhile isDigitCh
      let after := rest.dropWhile isDigitCh
      let frac :=
        match after with
        | '.' :: r => r.takeWhile isDigitCh
        | _ => []
      some (decValue intPart frac)
    else firstNumber rest

/-- First match of JS regex `[\$€£](\d+)` (price extraction, line 492):
the digit run immediately following the first currency glyph that is
directly followed by a digit. -/
def firstGlyphNum : Str → Option ℕ
  | [] => none
  | c :: rest =>
    if (c = '$' ∨ c = '€' ∨ c = '£') ∧ (rest.head?.elim false isDigitCh = true) then
      some (natOfDigits (rest.takeWhile isDigitCh))
    else firstGlyphNum rest

/-- JS `Math.round(x * 10) / 10` on a non-negative rational:
`Math.round` is floor of `x + 1/2`. -/
def round1 (q : ℚ) : ℚ :=
  (⌊q * 10 + 1 / 2⌋ : ℚ) / 10

/-- `generateTags` (lines 279-291): the fixed topical vocabulary. -/
def commonTags : List Str :=
  ["SEO", "Marketing", "Content", "Writing", "Digital", "Professional", "Quality"].map
    String.data

/-- JS `word.charAt(0).toUpperCase() + word.slice(1).toLowerCase()`. -/
def capWord : Str → Str
  | [] => []
  | c :: rest => c.toUpper :: rest.map Char.toLower

/-- JS `s.toLowerCase()` (ASCII model). -/
def toLowerStr (s : Str) : Str :=
  s.map Char.toLower

/-- JS `[...new Set(xs)]`: duplicates removed keeping the first
occurrence, order preserved. -/
def jsSetDedup (l : List Str) : List Str :=
  go l []
where
  go : List Str → List Str → List Str
    | [], _ => []
    | x :: rest, seen => if x ∈ seen then go rest seen else x :: go rest (x :: seen)

/-- `generateTags(title, keyword)` (lines 279-291): capitalized
space-separated keyword tokens, then vocabulary labels whose lowercase
form occurs inside some word of the lowercased title; deduplicated and
capped at 4. -/
def generateTags (title keyword : Str) : List Str :=
  let keywordTags := (keyword.splitOn ' ').map capWord
  let titleWords := (toLowerStr title).splitOn ' '
  let relevantTags := commonTags.filter fun tag =>
    titleWords.any fun w => hasSub (toLowerStr tag) w
  (jsSetDedup (keywordTags ++ relevantTags)).take 4

/-! ## Candidate containers and field extraction -/

/-- Query result for a title selector: nullable text content and nullable
`href` attribute. -/
structure TitleEl where
  text : Option Str
  href : Option Str
deriving DecidableEq

/-- Query result for a rating selector: nullable text content and the
nullable `aria-label` / `data-rating` attributes. -/
structure RatingEl where
  text : Option Str
  ariaLabel : Option Str
  dataRating : Option Str
deriving DecidableEq

/-- Query result for an image selector: the nullable `src`, `data-src`,
`data-lazy-src` and `style` attributes. -/
structure ImgEl where
  src : Option Str
  dataSrc : Option Str
  dataLazySrc : Option Str
  style : Option Str
deriving DecidableEq

/-- One candidate gig container: per field, the ordered query results of
that field's selector cascade (`none` = selector matched no element),
plus the container-level data attributes. -/
structure Candidate where
  dataTitle : Option Str
  titleEls : List (Option TitleEl)
  sepLink : Option (Option Str)
  ratingEls : List (Option RatingEl)
  reviewEls : List (Option (Option Str))
  priceEls : List (Option (Option Str))
  sellerEls : List (Option (Option Str))
  levelEls : List (Option (Option Str))
  imgEls : List (Option ImgEl)
  dataGigId : Option Str
  dataGig : Option Str
deriving DecidableEq

/-- The record shape pushed to the dataset (interface `Gig`). -/
structure Gig where
  id : Str
  title : Str
  link : Str
  rating : ℚ
  reviewCount : ℕ
  price : Str
  seller : Str
  sellerLevel : Str
  thumbnail : Str
  tags : List Str
deriving DecidableEq

/-- Title selector loop (lines 340-355): state is the current `title`,
`link` and `titleElement`; breaks when a found element's trimmed text has
length above 5, in which case the title is cleaned. -/
def titleLoopGo : List (Option TitleEl) → Str → Str → Option TitleEl →
    Str × Str × Option TitleEl
  | [], t, l, e => (t, l, e)
  | none :: rest, t, l, _ => titleLoopGo rest t l none
  | some el :: rest, _, _, _ =>
    let t2 := optTrim el.text
    let l2 := optStr el.href
    if t2 ≠ [] ∧ 5 < t2.length then (cleanText t2, l2, some el)
    else titleLoopGo rest t2 l2 (some el)

/-- Title and link resolution (lines 325-380): the
`data-impression-gig-title` attribute takes priority when its trimmed
length exceeds 5; otherwise the selector loop runs; the link falls back
to the title element's `href` and then to a separate
`a[href*="/gigs/"]` query. -/
def titleResolve (c : Candidate) : Str × Str :=
  let dt := optStr c.dataTitle
  let title0 : Str := if dt ≠ [] ∧ 5 < (jsTrim dt).length then cleanText dt else []
  let r := if title0 = [] then titleLoopGo c.titleEls [] [] none else (title0, [], none)
  let link1 := r.2.1
  let link2 :=
    if link1 = [] then
      match r.2.2 with
      | some el => optStr el.href
      | none => link1
    else link1
  let link3 :=
    if link2 = [] then
      match c.sepLink with
      | some href => optStr href
      | none => link2
    else link2
  (r.1, link3)

/-- The `|| ...` chain producing the rating text (lines 398-400). -/
def ratingTextOf (e : RatingEl) : Str :=
  jsOr (optTrim e.text) (jsOr (optStr e.ariaLabel) (jsOr (optStr e.dataRating) ['0']))

/-- Per-text rating validation (lines 402-412): parse the first
`\d+\.?\d*` match; accept iff it lies in `[1, 5]`, in which case the
value is rounded to one decimal. -/
def ratingStep (t : Str) : Option ℚ :=
  match firstNumber t with
  | some p => if 1 ≤ p ∧ p ≤ 5 then some (round1 p) else none
  | none => none

/-- Rating selector loop (lines 393-419): `rating` stays 0 until some
element's text yields an in-range parse, which breaks the loop. -/
def ratingLoop : List (Option RatingEl) → ℚ
  | [] => 0
  | none :: rest => ratingLoop rest
  | some e :: rest =>
    match ratingStep (ratingTextOf e) with
    | some r => r
    | none => ratingLoop rest

/-- Per-text review-count validation (lines 444-457): parse the first
`\(?(\d+)\)?` match; accept iff strictly between 0 and 50000. -/
def reviewStep (t : Str) : Option ℕ :=
  match firstNat t with
  | some n => if 0 < n ∧ n < 50000 then some n else none
  | none => none

/-- Review selector loop (lines 439-464): `reviewCount` stays 0 until an
element's text (defaulting to `"0"`) yields an accepted parse. -/
def reviewLoop : List (Option (Option Str)) → ℕ
  | [] => 0
  | none :: rest => reviewLoop rest
  | some tc :: rest =>
    match reviewStep (jsOr (optTrim tc) ['0']) with
    | some n => n
    | none => reviewLoop rest

/-- Whether a price text contains a recognized currency glyph
(line 490). -/
def hasGlyph (t : Str) : Bool :=
  '$' ∈ t ∨ '€' ∈ t ∨ '£' ∈ t

/-- Per-text price validation (lines 488-505): non-empty text with a
currency glyph whose `[\$€£](\d+)` match is strictly between 0 and
10000; the accepted text keeps its form, gaining a `From ` only when it
does not already contain `From`. -/
def priceStep (t : Str) : Option Str :=
  if t ≠ [] ∧ hasGlyph t = true then
    match firstGlyphNum t with
    | some n =>
      if 0 < n ∧ n < 10000 then
        some (if hasSub "From".data t then t else "From ".data ++ t)
      else none
    | none => none
  else none

/-- Price selector loop (lines 483-512): `price` stays empty until an
element's text is accepted. -/
def priceLoop : List (Option (Option Str)) → Str
  | [] => []
  | none :: rest => priceLoop rest
  | some tc :: rest =>
    match priceStep (optTrim tc) with
    | some p => p
    | none => priceLoop rest

/-- Seller selector loop (lines 530-547): accepts a trimmed text of
length strictly between 1 and 50, cleaned. -/
def sellerLoop : List (Option (Option Str)) → Str
  | [] => []
  | none :: rest => sellerLoop rest
  | some tc :: rest =>
    let t := optTrim tc
    if t ≠ [] ∧ 1 < t.length ∧ t.length < 50 then cleanText t
    else sellerLoop rest

/-- Seller-level selector loop (lines 564-580): accepts a non-empty text
containing `Level`, `Pro` or `Top`, cleaned; defaults to `Level 1`. -/
def levelLoop : List (Option (Option Str)) → Str
  | [] => "Level 1".data
  | none :: rest => levelLoop rest
  | some tc :: rest =>
    let t := optTrim tc
    if t ≠ [] ∧ (hasSub "Level".data t ∨ hasSub "Pro".data t ∨ hasSub "Top".data t) then
      cleanText t
    else levelLoop rest

/-- First match of the background-image regex
`background-image:\s*url\(['"]?([^'"]+)['"]?\)` (line 603), returning the
capture group.  At each scan position the literal head, optional
whitespace, `url(`, an optional quote, a greedy non-quote capture and an
optional quote before `)` are tried; on failure the scan advances one
character. -/
def bgCapture : Str → Option Str
  | [] => none
  | c :: rest =>
    match tryAt (c :: rest) with
    | some cap => some cap
    | none => bgCapture rest
where
  /-- Attempt the regex match anchored at the start of the text. -/
  tryAt (s : Str) : Option Str :=
    if "background-image:".data.isPrefixOf s then
      let s1 := (s.drop 17).dropWhile isWsChar
      if "url(".data.isPrefixOf s1 then
        let s2 := s1.drop 4
        let s3 := if s2.head?.elim false (fun d => d = apos ∨ d = quoteCh) then s2.drop 1 else s2
        let body := s3.takeWhile fun d => ¬ (d = apos ∨ d = quoteCh)
        let after := s3.dropWhile fun d => ¬ (d = apos ∨ d = quoteCh)
        closeOff body after
      else none
    else none
  /-- Backtracking for `([^'"]+)['"]?\)`: `body` is the maximal non-quote
  run, `after` the remaining text (empty or starting with a quote).  The
  greedy capture first tries all of `body` (needs a quote-then-`)` right
  after), then backtracks to end just before the last `)` inside
  `body`. -/
  closeOff (body after : Str) : Option Str :=
    match after with
    | q :: ')' :: _ =>
      if (q = apos ∨ q = quoteCh) ∧ body ≠ [] then some body else lastParen body
    | _ => lastParen body
  /-- Capture ending at the last `)` inside `body` itself; fails when
  the resulting capture would be empty. -/
  lastParen (body : Str) : Option Str :=
    let revTail := body.reverse.dropWhile fun d => ¬ d = ')'
    if revTail = [] then none
    else
      let pre := revTail.tail.reverse
      if pre = [] then none else some pre

/-- Image URL of one image element (lines 595-608): the
`src || data-src || data-lazy-src || ''` chain, with a background-image
fallback when that chain is empty and a style attribute is present. -/
def imgUrlOf (e : ImgEl) : Str :=
  let u := jsOr (jsOr (optStr e.src) (optStr e.dataSrc)) (optStr e.dataLazySrc)
  if u = [] ∧ optStr e.style ≠ [] then
    match bgCapture (optStr e.style) with
    | some cap => cap
    | none => u
  else u

/-- Thumbnail selector loop (lines 592-620): accepts a URL starting with
`http` (kept) or `//` (prefixed with `https:`). -/
def thumbLoop : List (Option ImgEl) → Str
  | [] => []
  | none :: rest => thumbLoop rest
  | some e :: rest =>
    let u := imgUrlOf e
    if u ≠ [] ∧ ("http".data.isPrefixOf u ∨ "//".data.isPrefixOf u) then
      if "http".data.isPrefixOf u then u else "https:".data ++ u
    else thumbLoop rest

/-- Link absolutization at push time (line 653). -/
def absLink (l : Str) : Str :=
  if "http".data.isPrefixOf l then l else "https://www.fiverr.com".data ++ l

/-- Protocol-relative thumbnail absolutization (line 611). -/
def absThumb (u : Str) : Str :=
  if "http".data.isPrefixOf u then u else "https:".data ++ u

/-- The extraction callback for one candidate container (lines 310-661):
each required field is resolved through its selector cascade and the
candidate is dropped (`none`) at the first failed validation guard;
`fid` stands for the synthesized timestamp/index/random fallback id. -/
def processGig (c : Candidate) (keyword fid : Str) : Option Gig :=
  let tl := titleResolve c
  if tl.1 = [] ∨ tl.1.length < 5 ∨ tl.2 = [] then none
  else
    let rating := ratingLoop c.ratingEls
    if rating = 0 then none
    else
      let reviewCount := reviewLoop c.reviewEls
      if reviewCount = 0 then none
      else
        let price := priceLoop c.priceEls
        if price = [] then none
        else
          let seller := sellerLoop c.sellerEls
          if seller = [] then none
          else
            let sellerLevel := levelLoop c.levelEls
            let thumbnail := thumbLoop c.imgEls
            if thumbnail = [] then none
            else
              some
                { id := jsOr (optStr c.dataGigId) (jsOr (optStr c.dataGig) fid)
                  title := tl.1
                  link := absLink tl.2
                  rating := rating
                  reviewCount := reviewCount
                  price := price
                  seller := seller
                  sellerLevel := sellerLevel
                  thumbnail := thumbnail
                  tags := generateTags tl.1 keyword }

/-- The `gigElements.forEach` pass (lines 308-671): every candidate is
processed in order and only successfully validated records are appended
to `extractedGigs`; `fids` supplies the synthesized fallback id for each
index. -/
def extractGigs (cands : List Candidate) (keyword : Str) (fids : ℕ → Str) : List Gig :=
  cands.enum.filterMap fun p => processGig p.2 keyword (fids p.1)

/-! ## Block detection, load phase and pagination -/

/-- The blocking indicator phrases (line 162). -/
def blockingKeywords : List Str :=
  ["blocked", "access denied", "forbidden", "captcha", "security check", "bot detected"].map
    String.data

/-- Lines 161-163: the page body text is lowercased and scanned for any
blocking keyword. -/
def isBlockedText (body : Str) : Bool :=
  blockingKeywords.any fun k => hasSub k (toLowerStr body)

/-- The error message thrown on block detection (line 168). -/
def blockMsg : Str :=
  "Page blocked by anti-bot protection".data

/-- Outcome of one page visit: the thrown-or-returned result, and how
often `session.markBad()` ran. -/
structure PageOutcome where
  result : Except Str (List Gig)
  markBadCount : ℕ

/-- Block check followed by extraction (lines 160-169 and 261-672): a
blocked page marks the session bad once and throws before any extraction
happens; otherwise extraction runs with no session signal. -/
def processPage (body : Str) (cands : List Candidate) (keyword : Str) (fids : ℕ → Str) :
    PageOutcome :=
  if isBlockedText body then ⟨.error blockMsg, 1⟩
  else ⟨.ok (extractGigs cands keyword fids), 0⟩

/-- The two awaited load states inside the `try` block (lines 138-146):
an error in the first skips the second. -/
def loadPhase (dom net : Except Str Unit) : Except Str Unit := do
  let _ ← dom
  net

/-- The handler from load wait to extraction (lines 138-169, 261-672):
the `catch` on the load phase only logs, so the handler proceeds to the
block check and extraction whatever the load result was. -/
def runHandler (dom net : Except Str Unit) (body : Str) (cands : List Candidate)
    (keyword : Str) (fids : ℕ → Str) : PageOutcome :=
  match loadPhase dom net with
  | .ok _ => processPage body cands keyword fids
  | .error _ => processPage body cands keyword fids

/-- Query result for a next-page selector (lines 710-717): presence of a
`disabled` attribute and of a `disabled` class. -/
structure NextBtn where
  disabledAttr : Bool
  disabledClass : Bool
deriving DecidableEq

/-- `nextPageExists` (lines 701-721): the selector cascade stops at the
first found element without `disabled` attribute or class. -/
def nextPageExists : List (Option NextBtn) → Bool
  | [] => false
  | none :: rest => nextPageExists rest
  | some b :: rest =>
    if ¬ b.disabledAttr ∧ ¬ b.disabledClass then true else nextPageExists rest

/-- Module-level `let currentPage = 1` (line 34). -/
def initialCurrentPage : ℕ := 1

/-- The continuation decision at the end of a page (lines 697-743):
returns the new `currentPage` and whether the next page was enqueued.
The counter is touched only when `currentPage < pages` and an enabled
next affordance exists. -/
def decideNext (pages cur : ℕ) (btns : List (Option NextBtn)) : ℕ × Bool :=
  if cur < pages then
    if nextPageExists btns then (cur + 1, true) else (cur, false)
  else (cur, false)

/-- Number of pages visited for a run: each visited page contributes its
own next-affordance query results; traversal continues exactly when the
continuation decision enqueues. -/
def visitCount (pages : ℕ) : ℕ → List (List (Option NextBtn)) → ℕ
  | _, [] => 0
  | cur, btns :: rest =>
    1 + (if (decideNext pages cur btns).2 then visitCount pages (cur + 1) rest else 0)

/-! ## Normalization lemmas -/

/-- The entity literal decoded by `replaceEnt`. -/
def entPat : Str := ['&', '#', '3', '9', ';']

lemma subOfPre {l m : Str} (h : l <+: m) : l <:+: m := by
  obtain ⟨t, ht⟩ := h
  exact ⟨[], t, by simpa using ht⟩

lemma subOfSuf {l m : Str} (h : l <:+ m) : l <:+: m := by
  obtain ⟨t, ht⟩ := h
  exact ⟨t, [], by simpa using ht⟩

lemma subCons {p : Str} {a : Char} {l : Str} : p <:+: a :: l ↔ p <+: a :: l ∨ p <:+: l :=
  List.infix_cons_iff

lemma subNil {p : Str} : p <:+: ([] : Str) ↔ p = [] :=
  List.infix_nil

lemma preNil {p : Str} : p <+: ([] : Str) ↔ p = [] :=
  List.prefix_nil

lemma revPre {l m : Str} : l.reverse <+: m.reverse ↔ l <:+ m :=
  List.reverse_prefix

lemma replaceChar_self (p : Char) (s : Str) : replaceChar p p s = s := by
  induction s with
  | nil => rfl
  | cons c rest ih =>
    simp only [replaceChar, ih]
    split
    · next hc => rw [hc]
    · rfl

lemma cleanText_eq (s : Str) : cleanText s = jsTrim (collapseWs (replaceEnt s)) := by
  unfold cleanText
  rw [replaceChar_self, replaceChar_self, replaceChar_self, replaceChar_self]

lemma pre_replaceEnt : ∀ s q : Str, q ≠ [] → apos ∉ q → q <+: replaceEnt s → q <+: s := by
  intro s
  induction s using replaceEnt.induct with
  | case1 rest ih =>
    intro q hq ha hp
    rw [show replaceEnt ('&' :: '#' :: '3' :: '9' :: ';' :: rest) = apos :: replaceEnt rest
      from rfl] at hp
    obtain ⟨r, hr⟩ := hp
    cases q with
    | nil => exact absurd rfl hq
    | cons q0 q' =>
      simp only [List.cons_append, List.cons.injEq] at hr
      exact absurd (by rw [← hr.1]; exact List.mem_cons_self q0 q') ha
  | case2 c rest h ih =>
    intro q hq ha hp
    rw [replaceEnt.eq_2 c rest h] at hp
    obtain ⟨r, hr⟩ := hp
    cases q with
    | nil => exact absurd rfl hq
    | cons q0 q' =>
      simp only [List.cons_append, List.cons.injEq] at hr
      by_cases hq' : q' = []
      · subst hq'
        exact ⟨rest, by simp [hr.1]⟩
      · have h2 : q' <+: replaceEnt rest := ⟨r, hr.2⟩
        have h3 : q' <+: rest := ih q' hq' (fun hm => ha (List.mem_cons_of_mem _ hm)) h2
        obtain ⟨r2, hr2⟩ := h3
        exact ⟨r2, by rw [hr.1, List.cons_append, hr2]⟩
  | case3 =>
    intro q hq _ hp
    exact absurd (preNil.mp hp) hq

lemma not_infix_replaceEnt : ∀ s : Str, ¬ entPat <:+: replaceEnt s := by
  intro s
  induction s using replaceEnt.induct with
  | case1 rest ih =>
    rw [show replaceEnt ('&' :: '#' :: '3' :: '9' :: ';' :: rest) = apos :: replaceEnt rest
      from rfl, subCons]
    rintro (hp | hi)
    · obtain ⟨r, hr⟩ := hp
      simp only [entPat, List.cons_append, List.cons.injEq] at hr
      exact absurd hr.1 (by decide)
    · exact ih hi
  | case2 c rest h ih =>
    rw [replaceEnt.eq_2 c rest h, subCons]
    rintro (hp | hi)
    · have h4 : entPat <+: c :: rest := by
        rw [show c :: replaceEnt rest = replaceEnt (c :: rest) from
          (replaceEnt.eq_2 c rest h).symm] at hp
        exact pre_replaceEnt (c :: rest) entPat (by decide) (by decide) hp
      obtain ⟨r, hr⟩ := h4
      simp only [entPat, List.cons_append, List.cons.injEq] at hr
      exact h r hr.1.symm hr.2.symm
    · exact ih hi
  | case3 =>
    intro hi
    exact absurd (subNil.mp hi) (by decide)

lemma replaceEnt_noop : ∀ s : Str, ¬ entPat <:+: s → replaceEnt s = s := by
  intro s
  induction s using replaceEnt.induct with
  | case1 rest ih =>
    intro hni
    exact absurd (subOfPre ⟨rest, rfl⟩) hni
  | case2 c rest h ih =>
    intro hni
    rw [replaceEnt.eq_2 c rest h, ih (fun hi => hni (subCons.mpr (Or.inr hi)))]
  | case3 =>
    intro _
    rfl

lemma collapseAux_ws {c : Char} (rest : Str) (hc : isWsChar c = true) :
    collapseAux (c :: rest) true = collapseAux rest true ∧
      collapseAux (c :: rest) false = ' ' :: collapseAux rest true := by
  constructor <;> simp [collapseAux, hc]

lemma collapseAux_not_ws {c : Char} (rest : Str) (b : Bool) (hc : isWsChar c = false) :
    collapseAux (c :: rest) b = c :: collapseAux rest false := by
  simp [collapseAux, hc]

lemma pre_collapseAux : ∀ s q : Str, q ≠ [] → (∀ d ∈ q, isWsChar d = false) →
    q <+: collapseAux s false → q <+: s := by
  intro s
  induction s with
  | nil =>
    intro q hq _ hp
    exact absurd (preNil.mp hp) hq
  | cons c rest ih =>
    intro q hq hnw hp
    by_cases hc : isWsChar c = true
    · rw [(collapseAux_ws rest hc).2] at hp
      obtain ⟨r, hr⟩ := hp
      cases q with
      | nil => exact absurd rfl hq
      | cons q0 q' =>
        simp only [List.cons_append, List.cons.injEq] at hr
        have : isWsChar q0 = false := hnw q0 (List.mem_cons_self q0 q')
        rw [hr.1] at this
        exact absurd this (by decide)
    · rw [collapseAux_not_ws rest false (by simpa using hc)] at hp
      obtain ⟨r, hr⟩ := hp
      cases q with
      | nil => exact absurd rfl hq
      | cons q0 q' =>
        simp only [List.cons_append, List.cons.injEq] at hr
        by_cases hq' : q' = []
        · subst hq'
          exact ⟨rest, by simp [hr.1]⟩
        · have h3 : q' <+: rest :=
            ih q' hq' (fun d hd => hnw d (List.mem_cons_of_mem _ hd)) ⟨r, hr.2⟩
          obtain ⟨r2, hr2⟩ := h3
          exact ⟨r2, by rw [hr.1, List.cons_append, hr2]⟩

lemma not_infix_collapseAux {p : Str} (hp0 : p ≠ [])
    (hph : ∀ d, p.head? = some d → isWsChar d = false)
    (hpw : ∀ d ∈ p, isWsChar d = false) :
    ∀ s : Str, ∀ b : Bool, ¬ p <:+: s → ¬ p <:+: collapseAux s b := by
  intro s
  induction s with
  | nil =>
    intro b _ hi
    exact absurd (subNil.mp (by simpa [collapseAux] using hi)) hp0
  | cons c rest ih =>
    intro b hni hi
    have hni' : ¬ p <:+: rest := fun hr => hni (subCons.mpr (Or.inr hr))
    by_cases hc : isWsChar c = true
    · cases b with
      | true =>
        rw [(collapseAux_ws rest hc).1] at hi
        exact ih true hni' hi
      | false =>
        rw [(collapseAux_ws rest hc).2, subCons] at hi
        rcases hi with hp | hi
        · cases p with
          | nil => exact hp0 rfl
          | cons p0 p' =>
            obtain ⟨r, hr⟩ := hp
            simp only [List.cons_append, List.cons.injEq] at hr
            have := hph p0 rfl
            rw [hr.1] at this
            exact absurd this (by decide)
        · exact ih true hni' hi
    · rw [collapseAux_not_ws rest b (by simpa using hc), subCons] at hi
      rcases hi with hp | hi
      · have h4 : p <+: c :: rest := by
          rw [show c :: collapseAux rest false = collapseAux (c :: rest) false from
            (collapseAux_not_ws rest false (by simpa using hc)).symm] at hp
          exact pre_collapseAux (c :: rest) p hp0 hpw hp
        exact hni (subOfPre h4)
      · exact ih false hni' hi

lemma head_dropWhile (p : Char → Bool) :
    ∀ l : List Char, ∀ d, (l.dropWhile p).head? = some d → p d = false := by
  intro l
  induction l with
  | nil => intro d h; simp at h
  | cons c rest ih =>
    intro d h
    rw [List.dropWhile_cons] at h
    split at h
    · exact ih d h
    · next hc =>
      simp only [List.head?_cons, Option.some.injEq] at h
      rw [← h]
      simpa using hc

lemma dropWhile_dropWhile (p : Char → Bool) (l : List Char) :
    (l.dropWhile p).dropWhile p = l.dropWhile p := by
  cases h : l.dropWhile p with
  | nil => rfl
  | cons d t =>
    have hd : p d = false := head_dropWhile p l d (by rw [h]; rfl)
    rw [List.dropWhile_cons, hd]
    simp

lemma trimRight_pre (l : Str) : (l.reverse.dropWhile isWsChar).reverse <+: l := by
  have h2 : l.reverse.dropWhile isWsChar <:+ l.reverse := List.dropWhile_suffix _
  have h3 := revPre.mpr h2
  rwa [List.reverse_reverse] at h3

lemma jsTrimSub (s : Str) : jsTrim s <:+: s := by
  unfold jsTrim
  exact (subOfPre (trimRight_pre (s.dropWhile isWsChar))).trans
    (subOfSuf (List.dropWhile_suffix _))

lemma jsTrim_idem (s : Str) : jsTrim (jsTrim s) = jsTrim s := by
  have hA : (jsTrim s).dropWhile isWsChar = jsTrim s := by
    cases ht : jsTrim s with
    | nil => rfl
    | cons d t =>
      have hpre : d :: t <+: s.dropWhile isWsChar := by
        rw [← ht]; exact trimRight_pre _
      obtain ⟨r, hr⟩ := hpre
      have hd : isWsChar d = false := head_dropWhile isWsChar s d (by rw [← hr]; rfl)
      rw [List.dropWhile_cons, hd]
      simp
  show ((jsTrim s |>.dropWhile isWsChar).reverse.dropWhile isWsChar).reverse = jsTrim s
  rw [hA]
  show ((jsTrim s).reverse.dropWhile isWsChar).reverse = jsTrim s
  unfold jsTrim
  rw [List.reverse_reverse, dropWhile_dropWhile]

/-- Canonical whitespace shape produced by `collapseWs`: every whitespace
character is a plain space and no two adjacent characters are both
whitespace. -/
def canonWs (s : Str) : Prop :=
  (∀ c ∈ s, isWsChar c = true → c = ' ') ∧
    List.Chain' (fun a b => ¬(isWsChar a = true ∧ isWsChar b = true)) s

lemma collapseAux_head_true :
    ∀ s : Str, ∀ d, (collapseAux s true).head? = some d → isWsChar d = false := by
  intro s
  induction s with
  | nil => intro d h; simp [collapseAux] at h
  | cons c rest ih =>
    intro d h
    by_cases hc : isWsChar c = true
    · rw [(collapseAux_ws rest hc).1] at h
      exact ih d h
    · rw [collapseAux_not_ws rest true (by simpa using hc)] at h
      simp only [List.head?_cons, Option.some.injEq] at h
      rw [← h]
      simpa using hc

lemma canonWs_collapseAux : ∀ s : Str, ∀ b, canonWs (collapseAux s b) := by
  intro s
  induction s with
  | nil =>
    intro b
    exact ⟨by simp [collapseAux], by simp [collapseAux]⟩
  | cons c rest ih =>
    intro b
    by_cases hc : isWsChar c = true
    · cases b with
      | true => rw [(collapseAux_ws rest hc).1]; exact ih true
      | false =>
        rw [(collapseAux_ws rest hc).2]
        obtain ⟨ihm, ihc⟩ := ih true
        refine ⟨?_, ?_⟩
        · intro x hx hxw
          rcases List.mem_cons.mp hx with h | h
          · exact h
          · exact ihm x h hxw
        · rw [List.chain'_cons']
          refine ⟨?_, ihc⟩
          intro y hy
          have := collapseAux_head_true rest y hy
          simp [this]
    · rw [collapseAux_not_ws rest b (by simpa using hc)]
      obtain ⟨ihm, ihc⟩ := ih false
      refine ⟨?_, ?_⟩
      · intro x hx hxw
        rcases List.mem_cons.mp hx with h | h
        · rw [h] at hxw; exact absurd hxw hc
        · exact ihm x h hxw
      · rw [List.chain'_cons']
        refine ⟨?_, ihc⟩
        intro y _
        simp only [not_and]
        intro hcw
        exact absurd hcw hc

lemma canonWs_dropWhile (p : Char → Bool) {s : Str} (h : canonWs s) :
    canonWs (s.dropWhile p) := by
  refine ⟨fun c hc => h.1 c ((List.dropWhile_suffix p).subset hc), ?_⟩
  exact h.2.suffix (List.dropWhile_suffix p)

lemma canonWs_reverse {s : Str} (h : canonWs s) : canonWs s.reverse := by
  refine ⟨fun c hc => h.1 c (List.mem_reverse.mp hc), ?_⟩
  rw [List.chain'_reverse]
  exact h.2.imp (fun a b hab => by
    simp only [flip]
    intro hk
    exact hab ⟨hk.2, hk.1⟩)

lemma canonWs_jsTrim {s : Str} (h : canonWs s) : canonWs (jsTrim s) := by
  unfold jsTrim
  exact canonWs_reverse (canonWs_dropWhile _ (canonWs_reverse (canonWs_dropWhile _ h)))

lemma collapseAux_flag_of_head (s : Str)
    (h : ∀ d, s.head? = some d → isWsChar d = false) :
    collapseAux s true = collapseAux s false := by
  cases s with
  | nil => rfl
  | cons c rest =>
    have hc : isWsChar c = false := h c rfl
    rw [collapseAux_not_ws rest true hc, collapseAux_not_ws rest false hc]

lemma collapseAux_canon_id : ∀ s : Str, canonWs s → collapseAux s false = s := by
  intro s
  induction s with
  | nil => intro _; rfl
  | cons c rest ih =>
    intro ⟨hm, hc⟩
    have hcanon_rest : canonWs rest := ⟨fun x hx => hm x (List.mem_cons_of_mem _ hx),
      (List.chain'_cons'.mp hc).2⟩
    by_cases hw : isWsChar c = true
    · have hsp : c = ' ' := hm c (List.mem_cons_self c rest) hw
      rw [(collapseAux_ws rest hw).2]
      have hhead : ∀ d, rest.head? = some d → isWsChar d = false := by
        intro d hd
        have := (List.chain'_cons'.mp hc).1 d hd
        by_contra hdw
        exact this ⟨hw, by simpa using hdw⟩
      rw [collapseAux_flag_of_head rest hhead, ih hcanon_rest, hsp]
    · rw [collapseAux_not_ws rest false (by simpa using hw), ih hcanon_rest]

/-- Characters of the decoded entity are not whitespace and the pattern
starts with an ampersand: facts used when carrying non-occurrence of the
entity through collapsing. -/
lemma entPat_facts : entPat ≠ [] ∧ (∀ d, entPat.head? = some d → isWsChar d = false) ∧
    ∀ d ∈ entPat, isWsChar d = false := by
  refine ⟨by decide, ?_, by decide⟩
  intro d hd
  simp only [entPat, List.head?_cons, Option.some.injEq] at hd
  rw [← hd]
  decide

lemma cleanText_idem (s : Str) : cleanText (cleanText s) = cleanText s := by
  rw [cleanText_eq s, cleanText_eq]
  set t := jsTrim (collapseWs (replaceEnt s)) with ht
  have hni_r : ¬ entPat <:+: replaceEnt s := not_infix_replaceEnt s
  have hni_c : ¬ entPat <:+: collapseAux (replaceEnt s) false :=
    not_infix_collapseAux entPat_facts.1 entPat_facts.2.1 entPat_facts.2.2
      (replaceEnt s) false hni_r
  have hni_t : ¬ entPat <:+: t := fun h => hni_c (h.trans (jsTrimSub _))
  have h1 : replaceEnt t = t := replaceEnt_noop t hni_t
  have hcanon_t : canonWs t := canonWs_jsTrim (canonWs_collapseAux (replaceEnt s) false)
  have h2 : collapseWs t = t := collapseAux_canon_id t hcanon_t
  rw [h1, h2, ht]
  exact jsTrim_idem _

/-! ## Validation lemmas -/

lemma round1_bounds {p : ℚ} (h1 : 1 ≤ p) (h5 : p ≤ 5) : 1 ≤ round1 p ∧ round1 p ≤ 5 := by
  unfold round1
  constructor
  · rw [le_div_iff₀ (by norm_num : (0:ℚ) < 10), one_mul]
    have : (10 : ℤ) ≤ ⌊p * 10 + 1 / 2⌋ := by
      rw [Int.le_floor]
      push_cast
      linarith
    exact_mod_cast this
  · rw [div_le_iff₀ (by norm_num : (0:ℚ) < 10)]
    have hf : ⌊p * 10 + 1 / 2⌋ ≤ ⌊(101 / 2 : ℚ)⌋ := Int.floor_le_floor (by linarith)
    have h50 : ⌊(101 / 2 : ℚ)⌋ = 50 := by norm_num
    rw [h50] at hf
    calc (⌊p * 10 + 1 / 2⌋ : ℚ) ≤ 50 := by exact_mod_cast hf
      _ = 5 * 10 := by norm_num

lemma round1_pos {p : ℚ} (h1 : 1 ≤ p) (h5 : p ≤ 5) : round1 p ≠ 0 := by
  have := (round1_bounds h1 h5).1
  intro h
  rw [h] at this
  norm_num at this

lemma ratingStep_char {t : Str} {r : ℚ} :
    ratingStep t = some r ↔ ∃ p, firstNumber t = some p ∧ 1 ≤ p ∧ p ≤ 5 ∧ r = round1 p := by
  unfold ratingStep
  cases hf : firstNumber t with
  | none => simp
  | some p =>
    rw [show (match some p with
        | some q => if 1 ≤ q ∧ q ≤ 5 then some (round1 q) else none
        | none => none) = if 1 ≤ p ∧ p ≤ 5 then some (round1 p) else none from rfl]
    simp only [Option.some.injEq]
    by_cases hc : 1 ≤ p ∧ p ≤ 5
    · rw [if_pos hc]
      simp only [Option.some.injEq]
      constructor
      · intro h
        exact ⟨p, rfl, hc.1, hc.2, h.symm⟩
      · rintro ⟨p', rfl, _, _, hr⟩
        exact hr.symm
    · rw [if_neg hc]
      constructor
      · intro h
        exact absurd h (by simp)
      · rintro ⟨p', rfl, h1, h5, _⟩
        exact absurd ⟨h1, h5⟩ hc

lemma ratingStep_bounds {t : Str} {r : ℚ} (h : ratingStep t = some r) :
    1 ≤ r ∧ r ≤ 5 := by
  obtain ⟨p, _, h1, h5, hr⟩ := ratingStep_char.mp h
  rw [hr]
  exact round1_bounds h1 h5

lemma ratingLoop_cases : ∀ els : List (Option RatingEl),
    ratingLoop els = 0 ∨ (1 ≤ ratingLoop els ∧ ratingLoop els ≤ 5) := by
  intro els
  induction els with
  | nil => left; rfl
  | cons e rest ih =>
    cases e with
    | none => simpa [ratingLoop] using ih
    | some el =>
      rw [show ratingLoop (some el :: rest) =
        (match ratingStep (ratingTextOf el) with
          | some r => r
          | none => ratingLoop rest) from rfl]
      cases hs : ratingStep (ratingTextOf el) with
      | none => simpa using ih
      | some r => right; simpa using ratingStep_bounds hs

lemma reviewStep_char {t : Str} {n : ℕ} :
    reviewStep t = some n ↔ firstNat t = some n ∧ 0 < n ∧ n < 50000 := by
  unfold reviewStep
  cases hf : firstNat t with
  | none => simp
  | some m =>
    rw [show (match some m with
        | some k => if 0 < k ∧ k < 50000 then some k else none
        | none => none) = if 0 < m ∧ m < 50000 then some m else none from rfl]
    simp only [Option.some.injEq]
    by_cases hc : 0 < m ∧ m < 50000
    · rw [if_pos hc]
      simp only [Option.some.injEq]
      constructor
      · rintro rfl
        exact ⟨rfl, hc⟩
      · rintro ⟨rfl, _⟩
        rfl
    · rw [if_neg hc]
      constructor
      · intro h
        exact absurd h (by simp)
      · rintro ⟨rfl, h0, h5⟩
        exact absurd ⟨h0, h5⟩ hc

lemma reviewLoop_cases : ∀ els : List (Option (Option Str)),
    reviewLoop els = 0 ∨ (0 < reviewLoop els ∧ reviewLoop els < 50000) := by
  intro els
  induction els with
  | nil => left; rfl
  | cons e rest ih =>
    cases e with
    | none => simpa [reviewLoop] using ih
    | some tc =>
      rw [show reviewLoop (some tc :: rest) =
        (match reviewStep (jsOr (optTrim tc) ['0']) with
          | some n => n
          | none => reviewLoop rest) from rfl]
      cases hs : reviewStep (jsOr (optTrim tc) ['0']) with
      | none => simpa using ih
      | some n =>
        right
        simpa using (reviewStep_char.mp hs).2

lemma absLink_ne_nil (l : Str) : absLink l ≠ [] := by
  unfold absLink
  split
  · next h =>
    intro he
    rw [he] at h
    exact absurd h (by decide)
  · simp

lemma firstGlyphNum_glyph : ∀ t : Str, ∀ n, firstGlyphNum t = some n →
    t ≠ [] ∧ hasGlyph t = true := by
  intro t
  induction t with
  | nil => intro n h; simp [firstGlyphNum] at h
  | cons c rest ih =>
    intro n h
    refine ⟨by simp, ?_⟩
    unfold firstGlyphNum at h
    split at h
    · next hc =>
      unfold hasGlyph
      rcases hc.1 with h | h | h <;> simp [h]
    · have := (ih n h).2
      unfold hasGlyph at this ⊢
      simp only [decide_eq_true_eq] at this ⊢
      rcases this with h | h | h
      · exact Or.inl (List.mem_cons_of_mem _ h)
      · exact Or.inr (Or.inl (List.mem_cons_of_mem _ h))
      · exact Or.inr (Or.inr (List.mem_cons_of_mem _ h))

lemma priceStep_char {t : Str} {out : Str} :
    priceStep t = some out ↔
      (∃ n, firstGlyphNum t = some n ∧ 0 < n ∧ n < 10000) ∧
        out = (if hasSub "From".data t then t else "From ".data ++ t) := by
  unfold priceStep
  constructor
  · intro h
    by_cases hglyph : t ≠ [] ∧ hasGlyph t = true
    · rw [if_pos hglyph] at h
      cases hg : firstGlyphNum t with
      | none => rw [hg] at h; exact absurd h (by simp)
      | some n =>
        rw [hg, show (match some n with
            | some k => if 0 < k ∧ k < 10000 then
                some (if hasSub "From".data t then t else "From ".data ++ t)
              else none
            | none => none) = if 0 < n ∧ n < 10000 then
                some (if hasSub "From".data t then t else "From ".data ++ t)
              else none from rfl] at h
        by_cases hr : 0 < n ∧ n < 10000
        · rw [if_pos hr] at h
          have := (Option.some.injEq _ _).mp h
          exact ⟨⟨n, rfl, hr⟩, this.symm⟩
        · rw [if_neg hr] at h
          exact absurd h (by simp)
    · rw [if_neg hglyph] at h
      exact absurd h (by simp)
  · rintro ⟨⟨n, hg, h0, h1⟩, hout⟩
    have hglyph := firstGlyphNum_glyph t n hg
    rw [if_pos ⟨hglyph.1, hglyph.2⟩, hg, show (match some n with
        | some k => if 0 < k ∧ k < 10000 then
            some (if hasSub "From".data t then t else "From ".data ++ t)
          else none
        | none => none) = if 0 < n ∧ n < 10000 then
            some (if hasSub "From".data t then t else "From ".data ++ t)
          else none from rfl, if_pos ⟨h0, h1⟩, hout]

lemma priceStep_shape {t out : Str} (h : priceStep t = some out) :
    out = t ∨ out = "From ".data ++ t := by
  obtain ⟨_, hout⟩ := priceStep_char.mp h
  split at hout
  · exact Or.inl hout
  · exact Or.inr hout

lemma priceStep_none_of_no_match {t : Str} (h : firstGlyphNum t = none) :
    priceStep t = none := by
  unfold priceStep
  split
  · rw [h]
  · rfl

/-- All required-field constraints a pushed record must satisfy. -/
def validGig (g : Gig) : Prop :=
  5 ≤ g.title.length ∧ g.link ≠ [] ∧ (1 ≤ g.rating ∧ g.rating ≤ 5) ∧
    (0 < g.reviewCount ∧ g.reviewCount < 50000) ∧ g.price ≠ [] ∧ g.seller ≠ [] ∧
    g.thumbnail ≠ []

lemma processGig_fields {c : Candidate} {kw fid : Str} {g : Gig}
    (h : processGig c kw fid = some g) : validGig g := by
  simp only [processGig] at h
  split_ifs at h with h1 h2 h3 h4 h5 h6
  cases h
  push_neg at h1
  obtain ⟨ht1, ht2, ht3⟩ := h1
  refine ⟨by simpa using ht2, absLink_ne_nil _, ?_, ?_, h4, h5, h6⟩
  · rcases ratingLoop_cases c.ratingEls with hr | hr
    · exact absurd hr h2
    · exact hr
  · rcases reviewLoop_cases c.reviewEls with hr | hr
    · exact absurd hr h3
    · exact hr

lemma jsSetDedup_go_spec : ∀ l seen : List Str,
    (jsSetDedup.go l seen).Nodup ∧ ∀ x ∈ jsSetDedup.go l seen, x ∉ seen := by
  intro l
  induction l with
  | nil => intro seen; exact ⟨List.nodup_nil, by simp [jsSetDedup.go]⟩
  | cons x rest ih =>
    intro seen
    by_cases hx : x ∈ seen
    · rw [show jsSetDedup.go (x :: rest) seen = jsSetDedup.go rest seen from by
        simp [jsSetDedup.go, hx]]
      exact ih seen
    · rw [show jsSetDedup.go (x :: rest) seen = x :: jsSetDedup.go rest (x :: seen) from by
        simp [jsSetDedup.go, hx]]
      obtain ⟨ihn, ihs⟩ := ih (x :: seen)
      refine ⟨List.nodup_cons.mpr ⟨?_, ihn⟩, ?_⟩
      · intro hmem
        exact ihs x hmem (List.mem_cons_self x seen)
      · intro y hy
        rcases List.mem_cons.mp hy with rfl | hy2
        · exact hx
        · exact fun hys => ihs y hy2 (List.mem_cons_of_mem _ hys)

lemma jsSetDedup_nodup (l : List Str) : (jsSetDedup l).Nodup :=
  (jsSetDedup_go_spec l []).1

lemma generateTags_nodup (title keyword : Str) : (generateTags title keyword).Nodup := by
  unfold generateTags
  exact (jsSetDedup_nodup _).sublist (List.take_sublist _ _)

lemma generateTags_len (title keyword : Str) : (generateTags title keyword).length ≤ 4 := by
  unfold generateTags
  exact List.length_take_le _ _

/-! ## A concrete fully-resolved candidate -/

/-- A concrete candidate whose every required field resolves. -/
def candDemo : Candidate :=
  { dataTitle := some "I will write SEO articles".data
    titleEls := []
    sepLink := some (some "/gigs/seo-article".data)
    ratingEls := [some ⟨some "4.9".data, none, none⟩]
    reviewEls := [some (some "(200)".data)]
    priceEls := [some (some "$45".data)]
    sellerEls := [some (some "johndoe".data)]
    levelEls := []
    imgEls := [some ⟨some "https://img.example/pic.png".data, none, none, none⟩]
    dataGigId := some "g1".data
    dataGig := none }

/-- The record extracted from `candDemo`. -/
def gigDemo : Gig :=
  { id := "g1".data
    title := "I will write SEO articles".data
    link := "https://www.fiverr.com/gigs/seo-article".data
    rating := 49 / 10
    reviewCount := 200
    price := "From $45".data
    seller := "johndoe".data
    sellerLevel := "Level 1".data
    thumbnail := "https://img.example/pic.png".data
    tags := ["Seo".data, "Writing".data, "SEO".data] }

lemma ratingLoop_demo : ratingLoop candDemo.ratingEls = 49 / 10 := by
  have h : firstNumber "4.9".data = some (decValue ['4'] ['9']) := rfl
  have hv : decValue ['4'] ['9'] = 49 / 10 := by
    have h4 : natOfDigits ['4'] = 4 := by decide
    have h9 : natOfDigits ['9'] = 9 := by decide
    simp [decValue, h4, h9]
    norm_num
  have ht : ratingTextOf ⟨some "4.9".data, none, none⟩ = "4.9".data := by decide
  show ratingLoop [some ⟨some "4.9".data, none, none⟩] = 49 / 10
  simp only [ratingLoop, ratingStep, ht, h, hv]
  norm_num [round1]

lemma processGig_demo :
    processGig candDemo "seo writing".data "f0".data = some gigDemo := by
  have htl : titleResolve candDemo =
      ("I will write SEO articles".data, "/gigs/seo-article".data) := by decide
  have hrev : reviewLoop candDemo.reviewEls = 200 := by decide
  have hpr : priceLoop candDemo.priceEls = "From $45".data := by decide
  have hsl : sellerLoop candDemo.sellerEls = "johndoe".data := by decide
  have hlv : levelLoop candDemo.levelEls = "Level 1".data := by decide
  have hth : thumbLoop candDemo.imgEls = "https://img.example/pic.png".data := by decide
  have hr := ratingLoop_demo
  have htg : generateTags "I will write SEO articles".data "seo writing".data =
      ["Seo".data, "Writing".data, "SEO".data] := by decide
  have hid : jsOr (optStr (some "g1".data)) (jsOr (optStr none) "f0".data) = "g1".data := by
    decide
  have hlk : absLink "/gigs/seo-article".data =
      "https://www.fiverr.com/gigs/seo-article".data := by decide
  simp only [processGig, htl, hrev, hpr, hsl, hlv, hth, hr, htg, hid, hlk]
  norm_num [gigDemo]
  decide

lemma extractGigs_demo :
    extractGigs [candDemo] "seo writing".data (fun _ => "f0".data) = [gigDemo] := by
  have h0 : extractGigs [candDemo] "seo writing".data (fun _ => "f0".data) =
      List.filterMap (fun p : ℕ × Candidate => processGig p.2 "seo writing".data "f0".data)
        [(0, candDemo)] := rfl
  rw [h0, List.filterMap_cons]
  rw [show processGig ((0 : ℕ), candDemo).2 "seo writing".data "f0".data = some gigDemo from
    processGig_demo]
  rfl

/-! ## Claim theorems -/

/-- C1: a record is appended to the extracted sequence only if every
required field (title, link, rating, reviewCount, price, seller,
thumbnail) resolved to a valid value, and a candidate with any missing or
invalid required field is skipped entirely, so no partial record with
empty or zero fields ever appears in the output. -/
theorem c1_no_partial_records :
    (∀ (cands : List Candidate) (kw : Str) (fids : ℕ → Str) (g : Gig),
      g ∈ extractGigs cands kw fids → validGig g) ∧
    (∀ (c : Candidate) (kw fid : Str),
      (titleResolve c).1 = [] ∨ (titleResolve c).1.length < 5 ∨ (titleResolve c).2 = [] ∨
        ratingLoop c.ratingEls = 0 ∨ reviewLoop c.reviewEls = 0 ∨ priceLoop c.priceEls = [] ∨
        sellerLoop c.sellerEls = [] ∨ thumbLoop c.imgEls = [] →
      processGig c kw fid = none) := by
  constructor
  · intro cands kw fids g h
    obtain ⟨p, _, hp⟩ := List.mem_filterMap.mp h
    exact processGig_fields hp
  · intro c kw fid hd
    simp only [processGig]
    split_ifs with h1 h2 h3 h4 h5 h6 <;> try rfl
    push_neg at h1
    rcases hd with d | d | d | d | d | d | d | d
    · exact absurd d h1.1
    · exact absurd d (by omega)
    · exact absurd d h1.2.2
    · exact absurd d h2
    · exact absurd d h3
    · exact absurd d h4
    · exact absurd d h5
    · exact absurd d h6

/-- C1 witness: a fully resolved concrete candidate produces a record in
the output, and that record satisfies every required-field constraint. -/
theorem c1_no_partial_records_witness : validGig gigDemo :=
  c1_no_partial_records.1 [candDemo] "seo writing".data (fun _ => "f0".data) gigDemo
    (by rw [extractGigs_demo]; exact List.mem_singleton.mpr rfl)

/-- C2: the traversal counter starts at 1, is incremented by exactly one
precisely when the continuation decision succeeds (current page below the
limit and an enabled next affordance found), never decreases, enqueues
nothing once the limit is reached or no enabled affordance exists, and
with limit 3 and affordances on pages 1-2 only, exactly 3 pages are
visited. -/
theorem c2_traversal_counter :
    initialCurrentPage = 1 ∧
    (∀ (pages cur : ℕ) (btns : List (Option NextBtn)),
      ((decideNext pages cur btns).1 = cur + 1 ∧ (decideNext pages cur btns).2 = true) ↔
        (cur < pages ∧ nextPageExists btns = true)) ∧
    (∀ (pages cur : ℕ) (btns : List (Option NextBtn)), cur ≤ (decideNext pages cur btns).1) ∧
    (∀ (pages cur : ℕ) (btns : List (Option NextBtn)),
      pages ≤ cur ∨ nextPageExists btns = false →
        (decideNext pages cur btns).1 = cur ∧ (decideNext pages cur btns).2 = false) ∧
    visitCount 3 1 [[some ⟨false, false⟩], [some ⟨false, false⟩], []] = 3 := by
  refine ⟨rfl, ?_, ?_, ?_, by decide⟩
  · intro pages cur btns
    unfold decideNext
    split_ifs with h1 h2 <;> simp_all
  · intro pages cur btns
    unfold decideNext
    split_ifs <;> omega
  · intro pages cur btns hd
    unfold decideNext
    split_ifs with h1 h2
    · rcases hd with h | h
      · omega
      · rw [h2] at h
        cases h
    · exact ⟨rfl, rfl⟩
    · exact ⟨rfl, rfl⟩

/-- C2 witness: at the page limit the decision leaves the counter
unchanged and enqueues nothing. -/
theorem c2_traversal_counter_witness :
    (decideNext 3 3 [some ⟨false, false⟩]).1 = 3 ∧
      (decideNext 3 3 [some ⟨false, false⟩]).2 = false :=
  c2_traversal_counter.2.2.2.1 3 3 [some ⟨false, false⟩] (Or.inl (by norm_num))

/-- C3: when the lowercased body text contains a blocking indicator the
handler marks the session bad exactly once and throws the anti-bot error
before any extraction; without an indicator no such error occurs at this
step and extraction proceeds. -/
theorem c3_block_detection :
    (∀ body : Str, isBlockedText body = true ↔
      ∃ k ∈ blockingKeywords, k <:+: toLowerStr body) ∧
    (∀ (body : Str) (cands : List Candidate) (kw : Str) (fids : ℕ → Str),
      isBlockedText body = true →
        processPage body cands kw fids = ⟨.error blockMsg, 1⟩) ∧
    (∀ (body : Str) (cands : List Candidate) (kw : Str) (fids : ℕ → Str),
      isBlockedText body = false →
        processPage body cands kw fids = ⟨.ok (extractGigs cands kw fids), 0⟩) := by
  refine ⟨?_, ?_, ?_⟩
  · intro body
    unfold isBlockedText hasSub
    rw [List.any_eq_true]
    constructor
    · rintro ⟨k, hk, hd⟩
      exact ⟨k, hk, of_decide_eq_true hd⟩
    · rintro ⟨k, hk, hd⟩
      exact ⟨k, hk, decide_eq_true hd⟩
  · intro body cands kw fids h
    simp [processPage, h]
  · intro body cands kw fids h
    simp [processPage, h]

/-- C3 witness: a page containing `CAPTCHA` aborts with the block error
and one session-unhealthy signal, with no extraction result. -/
theorem c3_block_detection_witness :
    processPage "Please solve the CAPTCHA".data [candDemo] "seo".data (fun _ => []) =
      ⟨.error blockMsg, 1⟩ :=
  c3_block_detection.2.1 "Please solve the CAPTCHA".data [candDemo] "seo".data
    (fun _ => []) (by decide)

/-- C4: rating extraction accepts exactly when the first numeric
substring of the rating text (sourced from text content or the
aria-label / data-rating fallbacks) lies in [1, 5], the accepted value
being that number rounded to one decimal; `4.7 out of 5` gives 4.7 and
`0 stars` is rejected with the rating left at 0, so a candidate without
a valid rating is skipped and the field is never emitted as zero. -/
theorem c4_rating_parsing :
    (∀ (t : Str) (r : ℚ), ratingStep t = some r ↔
      ∃ p, firstNumber t = some p ∧ 1 ≤ p ∧ p ≤ 5 ∧ r = round1 p) ∧
    ratingStep "4.7 out of 5".data = some (47 / 10) ∧
    ratingStep "0 stars".data = none ∧
    ratingLoop [some ⟨none, some "4.7 out of 5".data, none⟩] = 47 / 10 ∧
    ratingLoop [some ⟨some "0 stars".data, none, none⟩] = 0 ∧
    (∀ (c : Candidate) (kw fid : Str) (g : Gig), processGig c kw fid = some g →
      g.rating ≠ 0) ∧
    (∀ (c : Candidate) (kw fid : Str), ratingLoop c.ratingEls = 0 →
      processGig c kw fid = none) := by
  have h47 : firstNumber "4.7 out of 5".data = some (decValue ['4'] ['7']) := rfl
  have hv47 : decValue ['4'] ['7'] = 47 / 10 := by
    have h4 : natOfDigits ['4'] = 4 := by decide
    have h7 : natOfDigits ['7'] = 7 := by decide
    simp [decValue, h4, h7]
    norm_num
  have hstep47 : ratingStep "4.7 out of 5".data = some (47 / 10) := by
    simp only [ratingStep, h47, hv47]
    norm_num [round1]
  have h0 : firstNumber "0 stars".data = some (decValue ['0'] []) := rfl
  have hv0 : decValue ['0'] [] = 0 := by
    have hz : natOfDigits ['0'] = 0 := by decide
    have he : natOfDigits [] = 0 := by decide
    simp [decValue, hz, he]
  have hstep0 : ratingStep "0 stars".data = none := by
    simp only [ratingStep, h0, hv0]
    norm_num
  refine ⟨fun t r => ratingStep_char, hstep47, hstep0, ?_, ?_, ?_, ?_⟩
  · have ht : ratingTextOf ⟨none, some "4.7 out of 5".data, none⟩ =
        "4.7 out of 5".data := by decide
    simp only [ratingLoop, ht, hstep47]
  · have ht : ratingTextOf ⟨some "0 stars".data, none, none⟩ = "0 stars".data := by decide
    simp only [ratingLoop, ht, hstep0]
  · intro c kw fid g h
    have := (processGig_fields h).2.2.1.1
    intro hz
    rw [hz] at this
    norm_num at this
  · intro c kw fid h
    simp only [processGig]
    split_ifs <;> rfl

/-- C4 witness: the concrete candidate yields a record whose rating is
not zero. -/
theorem c4_rating_parsing_witness : gigDemo.rating ≠ 0 :=
  c4_rating_parsing.2.2.2.2.2.1 candDemo "seo writing".data "f0".data gigDemo processGig_demo

/-- C5 counterexample: `$ 45` contains a currency glyph and an in-range
numeric amount (45), yet price validation rejects it, refuting
acceptance for every text that merely contains a glyph and an in-range
amount. -/
theorem c5_price_counterexample :
    priceStep "$ 45".data = none ∧ hasGlyph "$ 45".data = true ∧
      firstNat "$ 45".data = some 45 ∧ 0 < 45 ∧ 45 < 10000 :=
  ⟨by decide, by decide, by decide, by norm_num, by norm_num⟩

/-- C5 (amended): price validation accepts exactly when some currency
glyph is immediately followed by digits and the first such digit run
parses to an amount strictly between 0 and 10000; an accepted text is
kept unchanged when it already contains `From` and otherwise gains the
prefix `From `; `$45` becomes `From $45`, `$0` and glyphless texts are
rejected. -/
theorem c5_price_validation :
    (∀ t out : Str, priceStep t = some out ↔
      (∃ n, firstGlyphNum t = some n ∧ 0 < n ∧ n < 10000) ∧
        out = (if hasSub "From".data t then t else "From ".data ++ t)) ∧
    priceStep "$45".data = some "From $45".data ∧
    priceStep "$0".data = none ∧
    (∀ t : Str, hasGlyph t = false → priceStep t = none) := by
  refine ⟨fun t out => priceStep_char, by decide, by decide, ?_⟩
  intro t h
  unfold priceStep
  rw [if_neg]
  intro hc
  rw [h] at hc
  exact absurd hc.2 (by decide)

/-- C5 witness: the amended characterization applied at `$9`. -/
theorem c5_price_validation_witness : priceStep "$9".data = some "From $9".data :=
  (c5_price_validation.1 "$9".data "From $9".data).mpr
    ⟨⟨9, by decide, by norm_num, by norm_num⟩, by decide⟩

/-- C6 counterexample: a parsed review count of exactly 50000 is
rejected by the code, refuting the claimed acceptance of every count up
to and including 50000. -/
theorem c6_review_counterexample :
    reviewStep "(50000)".data = none ∧ firstNat "(50000)".data = some 50000 :=
  ⟨by decide, by decide⟩

/-- C6 (amended): a parsed review count is accepted exactly when it lies
strictly between 0 and 50000, so counts 1 to 49999 are accepted, 0 is
treated as the field being missing (candidate rejected), and any count
of 50000 or more is rejected. -/
theorem c6_review_count_range :
    (∀ (t : Str) (n : ℕ), reviewStep t = some n ↔
      firstNat t = some n ∧ 0 < n ∧ n < 50000) ∧
    reviewStep "(49999)".data = some 49999 ∧
    reviewStep "(0)".data = none ∧
    (∀ els, reviewLoop els = 0 ∨ (0 < reviewLoop els ∧ reviewLoop els < 50000)) ∧
    (∀ (c : Candidate) (kw fid : Str), reviewLoop c.reviewEls = 0 →
      processGig c kw fid = none) := by
  refine ⟨fun t n => reviewStep_char, by decide, by decide, reviewLoop_cases, ?_⟩
  intro c kw fid h
  simp only [processGig]
  split_ifs <;> rfl

/-- C6 witness: the amended characterization applied at `(123)`. -/
theorem c6_review_count_range_witness : reviewStep "(123)".data = some 123 :=
  (c6_review_count_range.1 "(123)".data 123).mpr ⟨by decide, by norm_num, by norm_num⟩

/-- C7: tag derivation returns a duplicate-free list of at most four
strings equal to the first four elements of the deduplicated
concatenation of the capitalized space-separated keyword tokens and the
fixed vocabulary labels whose lowercase form occurs inside some word of
the lowercased title. -/
theorem c7_tag_derivation (title keyword : Str) :
    (generateTags title keyword).Nodup ∧ (generateTags title keyword).length ≤ 4 ∧
      generateTags title keyword =
        (jsSetDedup ((keyword.splitOn ' ').map capWord ++
          commonTags.filter fun tag =>
            ((toLowerStr title).splitOn ' ').any fun w => hasSub (toLowerStr tag) w)).take 4 :=
  ⟨generateTags_nodup title keyword, generateTags_len title keyword, rfl⟩

/-- C8: `cleanText` is idempotent and the link/thumbnail absolutization
steps are fixed points on normalized values: a link already starting
with `http` is kept unchanged and re-absolutizing an absolutized URL
changes nothing, so re-running the record normalization yields an
identical record. -/
theorem c8_normalization_idempotent :
    (∀ s : Str, cleanText (cleanText s) = cleanText s) ∧
    (∀ l : Str, "http".data.isPrefixOf l = true → absLink l = l) ∧
    (∀ l : Str, absLink (absLink l) = absLink l) ∧
    (∀ u : Str, absThumb (absThumb u) = absThumb u) := by
  refine ⟨cleanText_idem, ?_, ?_, ?_⟩
  · intro l h
    unfold absLink
    rw [if_pos h]
  · intro l
    by_cases h : "http".data.isPrefixOf l = true
    · simp only [show absLink l = l from by unfold absLink; rw [if_pos h]]
    · rw [show absLink l = "https://www.fiverr.com".data ++ l from by
        unfold absLink; rw [if_neg h]]
      unfold absLink
      rw [if_pos (show "http".data.isPrefixOf ("https://www.fiverr.com".data ++ l) = true
        from rfl)]
  · intro u
    by_cases h : "http".data.isPrefixOf u = true
    · simp only [show absThumb u = u from by unfold absThumb; rw [if_pos h]]
    · rw [show absThumb u = "https:".data ++ u from by unfold absThumb; rw [if_neg h]]
      unfold absThumb
      rw [if_pos (show "http".data.isPrefixOf ("https:".data ++ u) = true from rfl)]

/-- C8 witness: the fixed-point clause applied to a concrete absolute
link. -/
theorem c8_normalization_idempotent_witness :
    absLink "http://example.org/a".data = "http://example.org/a".data :=
  c8_normalization_idempotent.2.1 "http://example.org/a".data (by decide)

/-- C9: a failed load phase (timeout in either wait) is caught and the
handler still proceeds to block checking and extraction, producing
exactly the same outcome as a successful load. -/
theorem c9_load_timeout_nonfatal (dom net : Except Str Unit) (body : Str)
    (cands : List Candidate) (kw : Str) (fids : ℕ → Str) :
    runHandler dom net body cands kw fids = processPage body cands kw fids ∧
      runHandler dom net body cands kw fids =
        runHandler (.ok ()) (.ok ()) body cands kw fids := by
  constructor <;> (unfold runHandler; cases loadPhase dom net <;> rfl)

/-- C10: price acceptance requires a currency glyph immediately followed
by a digit (`$ 45` is rejected despite glyph and in-range amount), only
the integer digits directly after the glyph are range-checked for
decimal amounts (`$45.99` is checked as 45), and the emitted price
retains the full original text, at most with the `From ` prefix. -/
theorem c10_price_glyph_adjacency :
    priceStep "$ 45".data = none ∧
    firstGlyphNum "$45.99".data = some 45 ∧
    priceStep "$45.99".data = some "From $45.99".data ∧
    (∀ t : Str, firstGlyphNum t = none → priceStep t = none) ∧
    (∀ t out : Str, priceStep t = some out → out = t ∨ out = "From ".data ++ t) :=
  ⟨by decide, by decide, by decide, fun t h => priceStep_none_of_no_match h,
    fun t out h => priceStep_shape h⟩

/-- C10 witness: the retained-text clause applied at `$7`. -/
theorem c10_price_glyph_adjacency_witness :
    "From $7".data = "$7".data ∨ "From $7".data = "From ".data ++ "$7".data :=
  c10_price_glyph_adjacency.2.2.2.2 "$7".data "From $7".data (by decide)

end Scraper
